import Mathlib

/-!
Shallow embedding of `generate_masks_with_Grounded_SAM_2.py`.

The script is a batch pipeline: normalize keyword phrases into one query
string, enumerate JPEG files in a directory, and for each image obtain
bounding boxes from an external detector, obtain one mask per box from an
external segmentation predictor, union the masks, and write the result.

Strings from the Python code are embedded as `List Char`; numpy arrays are
embedded as shape-carrying structures (a shape tuple plus an index
function), mirroring numpy's representation of an array as a shape and
data.  All definitions are translated from the source file; external model
calls (SAM2, Grounding DINO) are abstracted by their output shapes or left
as parameters, as the spec treats them as opaque collaborators.
-/

namespace GroundedSAM2

/-! ### Keyword normalizer (main, lines 88-94)

    for i in range(len(keywords)):
        if not keywords[i].endswith('.'):
            keywords[i] += '.'
    keywords = ' '.join(keywords)
-/

/-- Python `s.endswith('.')`: the last character is a period (empty string
gives `false`). -/
def endsWithPeriod (s : List Char) : Bool :=
  s.getLast? == some '.'

/-- The per-phrase step of the loop: append `'.'` unless the phrase already
ends with one (`keywords[i] += '.'` guarded by `endswith`). -/
def addPeriod (s : List Char) : List Char :=
  if endsWithPeriod s then s else s ++ ['.']

/-- `' '.join(keywords)` applied after the in-place loop: normalize every
phrase, then join with single spaces. -/
def normalizeKeywords (l : List (List Char)) : List Char :=
  List.intercalate [' '] (l.map addPeriod)

/-- Number of consecutive periods at the end of a string (used to state
"exactly one trailing period"). -/
def countTrailingPeriods (s : List Char) : Nat :=
  (s.reverse.takeWhile (fun c => c == '.')).length

/-! ### SAM2Predictor.predict shape normalization (lines 42-48)

    # convert the shape to (n, H, W)
    if masks.ndim == 3:
        masks = masks[None]
    elif masks.ndim == 4:
        masks = masks.squeeze(1)

Embedded at the level of numpy shapes: `masks.ndim` is the length of the
shape list, `masks[None]` prepends a dimension of size 1, and
`masks.squeeze(1)` removes axis 1 when it has size 1 and raises otherwise
(modelled by `Option`). -/

/-- `np.squeeze(axis=1)` on a shape: defined only when axis 1 exists and
has extent 1. -/
def squeezeAxis1 (s : List Nat) : Option (List Nat) :=
  match s with
  | d0 :: 1 :: rest => some (d0 :: rest)
  | _ => none

/-- The wrapper's dimension normalization, as a function on the shape of
the model's returned mask array. -/
def normalizeMaskShape (s : List Nat) : Option (List Nat) :=
  if s.length = 3 then some (1 :: s)
  else if s.length = 4 then squeezeAxis1 s
  else some s

/-- The shape contract of the external SAM2 predictor for `N` input boxes
(spec §4.4): a batched `(N, 1, H, W)` output, or — for a single box
returned without a leading batch dimension — a `(1, H, W)` output. -/
def SAM2OutputShape (N H W : Nat) (s : List Nat) : Prop :=
  s = [N, 1, H, W] ∨ (N = 1 ∧ s = [1, H, W])

/-! ### Arrays for the mask post-processing (main, lines 122-129)

    masks, _, _ = mask_predictor.predict(input_boxes)
    masks = np.sum(masks, axis=0)
    masks = (masks > 0).astype(np.uint8)
    masks = np.repeat([masks * 255], 3, axis=0)
    masks = masks.transpose(1,2,0)
    cv2.imwrite(os.path.join(masks_dir, image_file), masks)

A numpy array is a shape plus data; we embed the three array layouts that
occur (the `(N, H, W)` boolean mask stack from the predictor, `(H, W)`
intermediate arrays, and channel-first/channel-last 3-d `uint8` arrays) as
structures carrying their extents and an index function. -/

/-- An `(N, H, W)` stack of binary masks, one per detected box: the value
returned by `SAM2Predictor.predict` after shape normalization.  Mask
values are binary, embedded as `Bool` (`true` = the mask marks the
pixel). -/
structure MaskStack where
  n : Nat
  h : Nat
  w : Nat
  data : Fin n → Fin h → Fin w → Bool

/-- An `(H, W)` array of nonnegative integers (sums and `uint8` values
stay within `Nat`; no arithmetic in the script can overflow `uint8`
255). -/
structure Arr2 where
  h : Nat
  w : Nat
  data : Fin h → Fin w → Nat

/-- A channel-first `(C, H, W)` array, produced by `np.repeat(..., axis=0)`. -/
structure Arr3CF where
  c : Nat
  h : Nat
  w : Nat
  data : Fin c → Fin h → Fin w → Nat

/-- A channel-last `(H, W, C)` array, produced by `transpose(1,2,0)`;
this is the layout handed to `cv2.imwrite`. -/
structure Arr3CL where
  h : Nat
  w : Nat
  c : Nat
  data : Fin h → Fin w → Fin c → Nat

/-- The numpy shape tuple of a mask stack. -/
def MaskStack.shape (s : MaskStack) : List Nat := [s.n, s.h, s.w]

/-- The numpy shape tuple of an `(H, W)` array. -/
def Arr2.shape (a : Arr2) : List Nat := [a.h, a.w]

/-- The numpy shape tuple of a channel-last array. -/
def Arr3CL.shape (a : Arr3CL) : List Nat := [a.h, a.w, a.c]

/-- `np.sum(masks, axis=0)` on an `(N, H, W)` stack of 0/1 masks: the
pointwise count, over the `N` axis, of masks marking each pixel.  For
`N = 0` numpy returns an `(H, W)` array of zeros, which the empty sum
reproduces. -/
def sumAxis0 (s : MaskStack) : Arr2 :=
  ⟨s.h, s.w, fun i j => ∑ k : Fin s.n, (s.data k i j).toNat⟩

/-- `(masks > 0).astype(np.uint8)`: 1 where the entry is positive, else 0. -/
def threshPos (a : Arr2) : Arr2 :=
  ⟨a.h, a.w, fun i j => if 0 < a.data i j then 1 else 0⟩

/-- `masks * 255`: scalar multiplication. -/
def scale255 (a : Arr2) : Arr2 :=
  ⟨a.h, a.w, fun i j => a.data i j * 255⟩

/-- `[masks]` inside `np.repeat([masks * 255], 3, axis=0)`: wrap an
`(H, W)` array into a `(1, H, W)` array. -/
def addLeadingAxis (a : Arr2) : Arr3CF :=
  ⟨1, a.h, a.w, fun _ i j => a.data i j⟩

/-- `np.repeat(arr, t, axis=0)` on a `(C, H, W)` array: each axis-0 slice
is repeated `t` times consecutively, so slice `k` of the result is slice
`k / t` of the input. -/
def repeatAxis0 (a : Arr3CF) (t : Nat) : Arr3CF :=
  ⟨a.c * t, a.h, a.w, fun k i j =>
    a.data ⟨k.val / t, Nat.div_lt_of_lt_mul (Nat.mul_comm a.c t ▸ k.isLt)⟩ i j⟩

/-- `arr.transpose(1,2,0)` on a `(C, H, W)` array: the `(H, W, C)` array
with `out[i,j,k] = arr[k,i,j]`. -/
def transpose120 (a : Arr3CF) : Arr3CL :=
  ⟨a.h, a.w, a.c, fun i j k => a.data k i j⟩

/-- The `(H, W)` combined mask scaled to 0/255 — the value of the
expression `masks * 255` at line 126, after the sum (line 124) and the
threshold (line 125). -/
def combinedMask (s : MaskStack) : Arr2 :=
  scale255 (threshPos (sumAxis0 s))

/-- The array handed to `cv2.imwrite` at line 129: the combined 0/255 mask
broadcast to three channels and transposed to channel-last layout
(lines 126-127). -/
def writtenArray (s : MaskStack) : Arr3CL :=
  transpose120 (repeatAxis0 (addLeadingAxis (combinedMask s)) 3)

/-! ### Image enumeration (main, lines 108-110)

    image_files = [file for file in os.listdir(images_dir)
                   if file.endswith(".jpg") or file.endswith(".jpeg") or
                   file.endswith(".JPG") or file.endswith(".JPEG")]
-/

/-- The extension test of the list comprehension: the file name ends with
one of the four exact suffixes. -/
def hasImageExt (f : List Char) : Bool :=
  (".jpg".data).isSuffixOf f || (".jpeg".data).isSuffixOf f ||
  (".JPG".data).isSuffixOf f || (".JPEG".data).isSuffixOf f

/-- The image enumerator: filter a directory listing by `hasImageExt`. -/
def listImages (files : List (List Char)) : List (List Char) :=
  files.filter hasImageExt

/-- Case-insensitive jpg/jpeg extension test, as the claim words it: after
lowercasing the name, it ends with `".jpg"` or `".jpeg"`. -/
def hasImageExtCI (f : List Char) : Bool :=
  (".jpg".data).isSuffixOf (f.map Char.toLower) ||
  (".jpeg".data).isSuffixOf (f.map Char.toLower)

/-! ### Output path (main, line 129)

    cv2.imwrite(os.path.join(masks_dir, image_file), masks)

`os.path.join` on POSIX: if the second component is absolute it replaces
the first; if the first is empty or already ends with the separator the
two are concatenated; otherwise a separator is inserted. -/

/-- POSIX `os.path.join(a, b)` for two components. -/
def osPathJoin (a b : List Char) : List Char :=
  if b.head? = some '/' then b
  else if a = [] ∨ a.getLast? = some '/' then a ++ b
  else a ++ '/' :: b

/-- The file-name part of a path: the characters after the last
separator. -/
def baseName (p : List Char) : List Char :=
  (p.reverse.takeWhile (fun c => c != '/')).reverse

/-! ### The driver loop (main, lines 113-129)

    for image_file in image_files:
        image = Image.open(...)
        mask_predictor.set_image(image)
        input_boxes = dino_detector.detect_objects(image, keywords)
        masks, _, _ = mask_predictor.predict(input_boxes)
        ... combine ...
        cv2.imwrite(os.path.join(masks_dir, image_file), masks)

There is no `try`/`except`: a Python exception raised while processing one
image aborts the loop.  We embed the per-image body as a parameter
`step : α → Except ε β` (its `Except.error` case is a raised exception,
its `Except.ok` case the mask written for that image) and the loop as a
fold that, like an uncaught exception, stops at the first error.  The
embedding returns the masks written so far (writes before the exception
have already happened), the list of images whose processing was attempted,
and the propagated exception if any. -/

/-- One run outcome of the Variant A driver loop: masks written (paired
with their file name), images attempted in order, and the uncaught
exception, if one occurred. -/
structure BatchResult (α β ε : Type) where
  written : List (α × β)
  attempted : List α
  err : Option ε

/-- The Variant A driver loop over the enumerated image files. -/
def runBatch {α β ε : Type} (step : α → Except ε β) :
    List α → BatchResult α β ε
  | [] => ⟨[], [], none⟩
  | f :: rest =>
    match step f with
    | .error e => ⟨[], [f], some e⟩
    | .ok m =>
      let r := runBatch step rest
      ⟨(f, m) :: r.written, f :: r.attempted, r.err⟩

/-! ### Concrete fixtures used by witness theorems -/

/-- A stack of one all-marking 1×1 mask. -/
def oneStack : MaskStack := ⟨1, 1, 1, fun _ _ _ => true⟩

/-- An empty mask stack over a 2×3 image: what the predictor returns, per
its §4.4 contract, when the detector finds zero boxes. -/
def emptyStack : MaskStack := ⟨0, 2, 3, fun k _ _ => k.elim0⟩

/-- A 2×2×2 stack whose first mask marks pixel (0,0) and whose second mask
marks pixel (1,1). -/
def twoStack : MaskStack :=
  ⟨2, 2, 2, fun k i j => k.val = 0 && i.val = 0 && j.val = 0 ||
                         k.val = 1 && i.val = 1 && j.val = 1⟩

/-- A per-image step that raises on file `"b.jpg"` and writes mask `0`
elsewhere. -/
def stepW : List Char → Except (List Char) Nat :=
  fun f => if f = "b.jpg".data then .error ("boom".data) else .ok 0

/-! ## Theorems -/

/-- `takeWhile` over an append whose first part wholly satisfies `p`
passes through the first part. -/
theorem takeWhile_append_of_all {α : Type} (p : α → Bool) (xs ys : List α)
    (h : ∀ a ∈ xs, p a = true) :
    (xs ++ ys).takeWhile p = xs ++ ys.takeWhile p := by
  have hx : xs.takeWhile p = xs := List.takeWhile_eq_self_iff.mpr h
  rw [List.takeWhile_append, hx, if_pos rfl]

/-- A string ending in a period has at least one trailing period. -/
theorem one_le_countTrailingPeriods (s : List Char)
    (h : endsWithPeriod s = true) : 1 ≤ countTrailingPeriods s := by
  have hl : s.getLast? = some '.' := by
    simpa [endsWithPeriod] using h
  have hr : s.reverse.head? = some '.' := by
    rw [List.head?_reverse]; exact hl
  obtain ⟨t, ht⟩ : ∃ t, s.reverse = '.' :: t := by
    cases hrev : s.reverse with
    | nil => rw [hrev] at hr; exact absurd hr (by simp)
    | cons a t =>
      rw [hrev] at hr
      have ha : a = '.' := by simpa using hr
      exact ⟨t, by rw [ha]⟩
  rw [countTrailingPeriods, ht]
  simp [List.takeWhile_cons]

/-- Appending a period to a string that does not end in one gives exactly
one trailing period. -/
theorem countTrailingPeriods_concat (s : List Char)
    (h : endsWithPeriod s = false) : countTrailingPeriods (s ++ ['.']) = 1 := by
  have hrev : (s ++ ['.']).reverse = '.' :: s.reverse := by simp
  have hzero : s.reverse.takeWhile (fun c => c == '.') = [] := by
    cases hr : s.reverse with
    | nil => rfl
    | cons a t =>
      have hl : s.getLast? = some a := by rw [← List.head?_reverse, hr]; rfl
      have ha : ¬ a = '.' := by
        intro hEq
        rw [hEq] at hl
        simp [endsWithPeriod, hl] at h
      simp [List.takeWhile_cons, ha]
  rw [countTrailingPeriods, hrev]
  simp [List.takeWhile_cons, hzero]

/-- C6: the per-phrase normalization is idempotent — applying the
append-period-if-missing step twice equals applying it once, and a phrase
already ending with a period is left unchanged. -/
theorem C6_addPeriod_idempotent (s : List Char) :
    addPeriod (addPeriod s) = addPeriod s ∧
    (endsWithPeriod s = true → addPeriod s = s) := by
  constructor
  · by_cases h : endsWithPeriod s = true
    · have h1 : addPeriod s = s := by rw [addPeriod, if_pos h]
      rw [h1]
      exact h1
    · have h1 : addPeriod s = s ++ ['.'] := by
        rw [addPeriod, if_neg h]
      have h2 : endsWithPeriod (s ++ ['.']) = true := by
        simp [endsWithPeriod, List.getLast?_concat]
      rw [h1, addPeriod, if_pos h2]
  · intro h
    rw [addPeriod, if_pos h]

/-- C6 witness: idempotence at `"cat"` and invariance of the
already-terminated phrase `"dog."`. -/
theorem C6_addPeriod_idempotent_witness :
    addPeriod (addPeriod ("cat".data)) = addPeriod ("cat".data) ∧
    addPeriod ("dog.".data) = "dog.".data :=
  ⟨(C6_addPeriod_idempotent ("cat".data)).1,
   (C6_addPeriod_idempotent ("dog.".data)).2 (by decide)⟩

/-- C5 counterexample: the phrase `"cat.."` already ends with a period, so
the loop leaves it unchanged and its normalized form has two trailing
periods, not exactly one. -/
theorem C5_counterexample :
    ¬ ∀ s ∈ [("cat..".data)], countTrailingPeriods (addPeriod s) = 1 := by
  decide

/-- C5 (amended): every normalized phrase has at least one trailing
period — exactly one when the input phrase did not already end with a
period, while a phrase already ending in periods keeps however many it
had — and consecutive phrases are joined by exactly one space. -/
theorem C5_normalizer (l : List (List Char)) :
    (∀ s ∈ l, 1 ≤ countTrailingPeriods (addPeriod s) ∧
      (endsWithPeriod s = false → countTrailingPeriods (addPeriod s) = 1) ∧
      (endsWithPeriod s = true → addPeriod s = s)) ∧
    (∀ x y t, l = x :: y :: t →
      normalizeKeywords l = addPeriod x ++ ' ' :: normalizeKeywords (y :: t)) := by
  constructor
  · intro s _
    refine ⟨?_, ?_, fun h => by rw [addPeriod, if_pos h]⟩
    · by_cases h : endsWithPeriod s = true
      · rw [addPeriod, if_pos h]
        exact one_le_countTrailingPeriods s h
      · rw [addPeriod, if_neg h]
        rw [countTrailingPeriods_concat s (by simpa using h)]
    · intro h
      rw [addPeriod, if_neg (by simp [h]), countTrailingPeriods_concat s h]
  · intro x y t hl
    subst hl
    simp [normalizeKeywords, List.intercalate, List.intersperse]

/-- C5 witness: the amended statement evaluated at the keyword list
`["cat", "dog."]`. -/
theorem C5_normalizer_witness :
    normalizeKeywords ["cat".data, "dog.".data] =
      addPeriod ("cat".data) ++ ' ' :: normalizeKeywords [("dog.".data)] ∧
    countTrailingPeriods (addPeriod ("cat".data)) = 1 :=
  ⟨(C5_normalizer ["cat".data, "dog.".data]).2 _ _ _ rfl,
   ((C5_normalizer ["cat".data, "dog.".data]).1 _ (by decide)).2.1 (by decide)⟩

/-- C1: the wrapper's dimension normalization does not deliver the
documented `(N, H, W)` shape in the 3-dimensional case.  Evaluated at a
3-dimensional single-box model output of shape `(1, 2, 2)`: prepending the
batch dimension yields the 4-dimensional shape `(1, 1, 2, 2)`, so the
normalization does not map every contract-conforming model output for `N`
boxes to `(N, H, W)`. -/
theorem C1_predict_shape_bug :
    normalizeMaskShape [1, 2, 2] = some [1, 1, 2, 2] ∧
    ¬ (∀ N H W s, SAM2OutputShape N H W s →
        normalizeMaskShape s = some [N, H, W]) := by
  refine ⟨by decide, fun h => ?_⟩
  have h2 := h 1 2 2 [1, 2, 2] (Or.inr ⟨rfl, rfl⟩)
  exact absurd h2 (by decide)

/-- The combined mask at a pixel is 255 when the per-mask sum there is
positive and 0 otherwise (lines 124-126 unfolded). -/
theorem combinedMask_data_eq (s : MaskStack) (i : Fin s.h) (j : Fin s.w) :
    (combinedMask s).data i j =
      if 0 < ∑ k : Fin s.n, (s.data k i j).toNat then 255 else 0 := by
  by_cases h : 0 < ∑ k : Fin s.n, (s.data k i j).toNat
  · simp [combinedMask, scale255, threshPos, sumAxis0, h]
  · simp [combinedMask, scale255, threshPos, sumAxis0, h]

/-- The axis-0 sum at a pixel is positive exactly when some mask marks the
pixel. -/
theorem sum_pos_iff_exists (s : MaskStack) (i : Fin s.h) (j : Fin s.w) :
    (0 < ∑ k : Fin s.n, (s.data k i j).toNat) ↔ ∃ k, s.data k i j = true := by
  constructor
  · intro h
    by_contra hne
    push_neg at hne
    simp only [Bool.not_eq_true] at hne
    have hz : ∑ k : Fin s.n, (s.data k i j).toNat = 0 :=
      Finset.sum_eq_zero fun k _ => by simp [hne k]
    omega
  · rintro ⟨k, hk⟩
    have h1 : 0 < (s.data k i j).toNat := by simp [hk]
    exact lt_of_lt_of_le h1
      (Finset.single_le_sum (f := fun m : Fin s.n => (s.data m i j).toNat)
        (fun m _ => Nat.zero_le _) (Finset.mem_univ k))

/-- Every pixel of the combined mask is 0 or 255. -/
theorem combinedMask_data_mem (s : MaskStack) (i : Fin s.h) (j : Fin s.w) :
    (combinedMask s).data i j = 0 ∨ (combinedMask s).data i j = 255 := by
  rw [combinedMask_data_eq]
  by_cases h : 0 < ∑ k : Fin s.n, (s.data k i j).toNat
  · right
    rw [if_pos h]
  · left
    rw [if_neg h]

/-- C3: a pixel of the combined mask equals 255 iff at least one of the N
per-object masks marks it, and equals 0 iff none does: the sum-then-
threshold computation realizes the logical OR across the N axis. -/
theorem C3_combine_is_or (s : MaskStack) (i : Fin s.h) (j : Fin s.w) :
    ((combinedMask s).data i j = 255 ↔ ∃ k, s.data k i j = true) ∧
    ((combinedMask s).data i j = 0 ↔ ∀ k, s.data k i j = false) := by
  have key := sum_pos_iff_exists s i j
  by_cases h : 0 < ∑ k : Fin s.n, (s.data k i j).toNat
  · rw [combinedMask_data_eq, if_pos h]
    refine ⟨iff_of_true rfl (key.mp h), iff_of_false (by decide) ?_⟩
    intro hall
    obtain ⟨k, hk⟩ := key.mp h
    rw [hall k] at hk
    exact Bool.noConfusion hk
  · rw [combinedMask_data_eq, if_neg h]
    have hall : ∀ k, s.data k i j = false := by
      intro k
      by_contra hk
      exact h (key.mpr ⟨k, by simpa using hk⟩)
    refine ⟨iff_of_false (by decide) ?_, iff_of_true rfl hall⟩
    rintro ⟨k, hk⟩
    rw [hall k] at hk
    exact Bool.noConfusion hk

/-- C2 counterexample: for the one-mask 1×1 stack, the array written to
disk has shape `(1, 1, 3)` (three channels), not the claimed `(H, W) =
(1, 1)`. -/
theorem C2_counterexample :
    (writtenArray oneStack).shape = [1, 1, 3] ∧
    (writtenArray oneStack).shape ≠ [1, 1] := by
  decide

/-- C2 (amended): for every non-empty mask stack the combiner's mask
contains only the values 0 and 255 and is shaped `(H, W)` matching the
source image; the array subsequently written to disk is its three-channel
broadcast, shaped `(H, W, 3)`, with every channel equal to that mask. -/
theorem C2_combiner_output (s : MaskStack) (_hn : 0 < s.n) :
    (combinedMask s).shape = [s.h, s.w] ∧
    (∀ i j, (combinedMask s).data i j = 0 ∨ (combinedMask s).data i j = 255) ∧
    (writtenArray s).shape = [s.h, s.w, 3] ∧
    (∀ i j k, (writtenArray s).data i j k = (combinedMask s).data i j) :=
  ⟨rfl, fun i j => combinedMask_data_mem s i j, rfl, fun _ _ _ => rfl⟩

/-- C2 witness: the amended statement evaluated at the one-mask 1×1
stack. -/
theorem C2_combiner_output_witness :
    (combinedMask oneStack).shape = [1, 1] ∧
    (writtenArray oneStack).shape = [1, 1, 3] :=
  ⟨(C2_combiner_output oneStack (by decide)).1,
   (C2_combiner_output oneStack (by decide)).2.2.1⟩

/-- C4: when the detector returns zero boxes (an empty mask stack), the
post-processing is still well defined — the empty axis-0 sum is the zero
array — and the pipeline writes an all-zero mask of the image's shape. -/
theorem C4_zero_boxes_all_zero (s : MaskStack) (hn : s.n = 0) :
    (combinedMask s).shape = [s.h, s.w] ∧
    (∀ i j, (combinedMask s).data i j = 0) ∧
    (∀ i j k, (writtenArray s).data i j k = 0) := by
  have hz : ∀ (i : Fin s.h) (j : Fin s.w), (combinedMask s).data i j = 0 := by
    intro i j
    rw [combinedMask_data_eq]
    haveI : IsEmpty (Fin s.n) := by rw [hn]; infer_instance
    simp
  exact ⟨rfl, hz, fun i j _ => hz i j⟩

/-- C4 witness: the empty stack over a 2×3 image yields the all-zero
mask. -/
theorem C4_zero_boxes_all_zero_witness :
    (combinedMask emptyStack).shape = [2, 3] ∧
    (writtenArray emptyStack).data ⟨1, by decide⟩ ⟨2, by decide⟩ ⟨0, by decide⟩ = 0 :=
  ⟨(C4_zero_boxes_all_zero emptyStack rfl).1,
   (C4_zero_boxes_all_zero emptyStack rfl).2.2 _ _ _⟩

/-- C10: the array handed to the image writer is `(H, W, 3)`-shaped with
three pixel-wise identical channels, each equal to the combiner's 0/255
binary mask. -/
theorem C10_written_three_identical_channels (s : MaskStack) :
    (writtenArray s).shape = [s.h, s.w, 3] ∧
    (∀ i j k1 k2, (writtenArray s).data i j k1 = (writtenArray s).data i j k2) ∧
    (∀ i j k, (writtenArray s).data i j k = (combinedMask s).data i j ∧
      ((writtenArray s).data i j k = 0 ∨ (writtenArray s).data i j k = 255)) :=
  ⟨rfl, fun _ _ _ _ => rfl, fun i j _ => ⟨rfl, combinedMask_data_mem s i j⟩⟩

/-- C7 counterexample: the name `"photo.Jpg"` case-insensitively matches
the jpg extension, yet the enumerator excludes it — its mixed-case suffix
is not in the code's four-variant allow-list. -/
theorem C7_counterexample :
    hasImageExtCI ("photo.Jpg".data) = true ∧
    listImages [("photo.Jpg".data)] ≠ [("photo.Jpg".data)] := by
  decide

/-- C7 (amended): the enumerator selects exactly those entries ending with
one of the four exact suffixes `.jpg`, `.jpeg`, `.JPG`, `.JPEG` and
silently excludes every other entry; every selected name does match
jpg/jpeg case-insensitively, but not every case variant is accepted. -/
theorem C7_enumeration (files : List (List Char)) (f : List Char) :
    (f ∈ listImages files ↔ f ∈ files ∧ hasImageExt f = true) ∧
    (hasImageExt f = true → hasImageExtCI f = true) := by
  constructor
  · simp [listImages, List.mem_filter]
  · intro h
    have hlow : ∀ sfx : List Char, sfx.isSuffixOf f = true →
        (sfx.map Char.toLower).isSuffixOf (f.map Char.toLower) = true := by
      intro sfx hs
      exact List.isSuffixOf_iff_suffix.mpr
        ((List.isSuffixOf_iff_suffix.mp hs).map Char.toLower)
    simp only [hasImageExt, Bool.or_eq_true] at h
    simp only [hasImageExtCI, Bool.or_eq_true]
    rcases h with ((h1 | h2) | h3) | h4
    · exact Or.inl (by simpa using hlow _ h1)
    · exact Or.inr (by simpa using hlow _ h2)
    · exact Or.inl (by simpa using hlow _ h3)
    · exact Or.inr (by simpa using hlow _ h4)

/-- C7 witness: the uppercase name `"a.JPG"` is selected and indeed
matches case-insensitively. -/
theorem C7_enumeration_witness :
    hasImageExtCI ("a.JPG".data) = true :=
  (C7_enumeration [("a.JPG".data)] ("a.JPG".data)).2 (by decide)

/-- C8: in the Variant A driver loop, an exception raised while processing
one image propagates — the run ends in that error, the images listed after
the failing one are never attempted, and masks are written only for the
images before it (none for the failing image). -/
theorem C8_fault_propagation {β ε : Type} (step : List Char → Except ε β)
    (pre post : List (List Char)) (f : List Char) (e : ε)
    (hok : ∀ g ∈ pre, ∃ m, step g = .ok m) (hf : step f = .error e) :
    (runBatch step (pre ++ f :: post)).err = some e ∧
    (runBatch step (pre ++ f :: post)).attempted = pre ++ [f] ∧
    (runBatch step (pre ++ f :: post)).written.map Prod.fst = pre := by
  induction pre with
  | nil =>
    simp [runBatch, hf]
  | cons g gs ih =>
    obtain ⟨m, hm⟩ := hok g (List.mem_cons_self g gs)
    have ihgs := ih fun x hx => hok x (List.mem_cons_of_mem g hx)
    simp only [List.cons_append, runBatch, hm]
    exact ⟨ihgs.1, by simp [ihgs.2.1], by simp [ihgs.2.2]⟩

/-- C8 witness: with a step that raises on `"b.jpg"`, the batch over
`["a.jpg", "b.jpg", "c.jpg"]` stops at `"b.jpg"` with only the mask for
`"a.jpg"` written. -/
theorem C8_fault_propagation_witness :
    (runBatch stepW (["a.jpg".data] ++ ("b.jpg".data) :: [("c.jpg".data)])).err =
      some ("boom".data) ∧
    (runBatch stepW (["a.jpg".data] ++ ("b.jpg".data) :: [("c.jpg".data)])).attempted =
      ["a.jpg".data] ++ [("b.jpg".data)] ∧
    (runBatch stepW (["a.jpg".data] ++ ("b.jpg".data) :: [("c.jpg".data)])).written.map
      Prod.fst = ["a.jpg".data] :=
  C8_fault_propagation stepW ["a.jpg".data] [("c.jpg".data)] ("b.jpg".data) ("boom".data)
    (by
      intro g hg
      rw [List.mem_singleton] at hg
      subst hg
      exact ⟨0, rfl⟩)
    rfl

/-- A path whose characters avoid the separator is its own base name. -/
theorem baseName_no_sep (f : List Char) (hf : '/' ∉ f) : baseName f = f := by
  have hall : ∀ c ∈ f.reverse, (c != '/') = true := by
    intro c hc
    have : c ∈ f := List.mem_reverse.mp hc
    simp only [bne_iff_ne, ne_eq]
    intro hEq
    exact hf (hEq ▸ this)
  rw [baseName, List.takeWhile_eq_self_iff.mpr hall, List.reverse_reverse]

/-- The base name of a directory part followed by a separator and a
separator-free file name is that file name. -/
theorem baseName_append_sep (d f : List Char) (hf : '/' ∉ f) :
    baseName (d ++ '/' :: f) = f := by
  have hall : ∀ c ∈ f.reverse, (c != '/') = true := by
    intro c hc
    have : c ∈ f := List.mem_reverse.mp hc
    simp only [bne_iff_ne, ne_eq]
    intro hEq
    exact hf (hEq ▸ this)
  have hrev : (d ++ '/' :: f).reverse = f.reverse ++ '/' :: d.reverse := by
    simp
  rw [baseName, hrev, takeWhile_append_of_all _ _ _ hall]
  simp [List.takeWhile_cons]

/-- C9: the mask is written under exactly the input image's file name
(extension included): the base name of the joined output path equals the
image file name, and when the masks directory is a plain nonempty path the
output path is the directory, the separator, then that name. -/
theorem C9_output_name_preserved (d f : List Char) (hf : '/' ∉ f) :
    baseName (osPathJoin d f) = f ∧
    (d ≠ [] → d.getLast? ≠ some '/' → osPathJoin d f = d ++ '/' :: f) := by
  have hb : ¬ f.head? = some '/' := by
    cases f with
    | nil => simp
    | cons a t =>
      simp only [List.head?_cons, Option.some.injEq]
      intro hEq
      exact hf (hEq ▸ List.mem_cons_self a t)
  constructor
  · by_cases ha : d = [] ∨ d.getLast? = some '/'
    · rw [osPathJoin, if_neg hb, if_pos ha]
      rcases ha with ha | ha
      · subst ha
        simpa using baseName_no_sep f hf
      · have hd : d.reverse.head? = some '/' := by
          rw [List.head?_reverse]; exact ha
        obtain ⟨t, ht⟩ : ∃ t, d.reverse = '/' :: t := by
          cases hdr : d.reverse with
          | nil => rw [hdr] at hd; exact absurd hd (by simp)
          | cons a t =>
            rw [hdr] at hd
            have : a = '/' := by simpa using hd
            exact ⟨t, by rw [this]⟩
        have hall : ∀ c ∈ f.reverse, (c != '/') = true := by
          intro c hc
          have : c ∈ f := List.mem_reverse.mp hc
          simp only [bne_iff_ne, ne_eq]
          intro hEq
          exact hf (hEq ▸ this)
        have hrev : (d ++ f).reverse = f.reverse ++ '/' :: t := by
          rw [List.reverse_append, ht]
        rw [baseName, hrev, takeWhile_append_of_all _ _ _ hall]
        simp [List.takeWhile_cons]
    · rw [osPathJoin, if_neg hb, if_neg ha]
      exact baseName_append_sep d f hf
  · intro h1 h2
    rw [osPathJoin, if_neg hb, if_neg (by simp [h1, h2])]

/-- C9 witness: joining `"masks"` and `"a.jpg"` gives `"masks/a.jpg"`,
whose base name is `"a.jpg"`. -/
theorem C9_output_name_preserved_witness :
    baseName (osPathJoin ("masks".data) ("a.jpg".data)) = "a.jpg".data ∧
    osPathJoin ("masks".data) ("a.jpg".data) = "masks".data ++ '/' :: "a.jpg".data :=
  ⟨(C9_output_name_preserved ("masks".data) ("a.jpg".data) (by decide)).1,
   (C9_output_name_preserved ("masks".data) ("a.jpg".data) (by decide)).2
     (by decide) (by decide)⟩

end GroundedSAM2
